import Mathlib

/-!
Verification development for `scripts/find-hardcoded-colors.py`, a one-shot
static scanner that walks `.tsx` files, matches four fixed regular
expressions against every line, aggregates matches by rule name and file
path, and prints a grouped report.

The embedding works over `List Char` (the script only ever handles the
ASCII class names that appear in Tailwind code, so the ASCII readings of
`\w`, `\d`, `\s` and `str.strip` coincide with Python's Unicode-aware
ones on all inputs of interest).  Machinery:

* a small regular-expression engine (`matchSeq` / `reFindAll`) implementing
  Python `re`'s leftmost, greedy, backtracking semantics for the fragment
  the script uses (literals, single-character classes, and greedy `+`,
  encoded as a class atom followed by a greedy star atom);
* `scanContent` embedding `find_patterns_in_file` (split on newline,
  1-based enumeration, per-line `findall`, the focus-ring suppression,
  `defaultdict(list)` append order);
* `processFiles` embedding the walk/aggregate loop of `main`, with a
  file modelled as a path plus `Except`-valued content (`.error e` models
  a read that raises an exception with message `e`).  The script uses the
  file's full path for the ignore test and the path relative to the app
  parent as the report key; since `relative_to` is injective on files
  under one root we model both by a single path string;
* `reportLines` / `summaryLines` embedding the reporting half of `main`.
  Every `print(x)` call is modelled as one element of a stdout list; the
  script contains no write to stderr (the error message in
  `find_patterns_in_file` is a plain `print`), so `mainStderr` is empty.
-/

/-- ASCII reading of Python's `\w` (word character). -/
def wordC (c : Char) : Bool := c.isAlphanum || c == '_'

/-- ASCII reading of Python's `\d` (decimal digit). -/
def digitC (c : Char) : Bool := c.isDigit

/-- ASCII reading of Python's `\s` (whitespace), also used by `str.strip`. -/
def isPySpace (c : Char) : Bool :=
  c == ' ' || c == '\t' || c == '\n' || c == '\r' || c == '\x0b' || c == '\x0c'

/-- The character class `(?:\s|\"|\x60|\/)` closing the `bg-*-50` pattern. -/
def delim50 (c : Char) : Bool := isPySpace c || c == '\x22' || c == '\x60' || c == '/'

/-- `startsL n h` : `n` is a prefix of `h` (boolean, by character equality). -/
def startsL : List Char → List Char → Bool
  | [], _ => true
  | _ :: _, [] => false
  | x :: xs, y :: ys => x == y && startsL xs ys

/-- Python's substring test `needle in hay`. -/
def hasSeg (needle : List Char) : List Char → Bool
  | [] => startsL needle []
  | y :: ys => startsL needle (y :: ys) || hasSeg needle ys

/-- Python `str.strip()` restricted to ASCII whitespace. -/
def stripL (s : List Char) : List Char :=
  ((s.dropWhile isPySpace).reverse.dropWhile isPySpace).reverse

/-- Python `content.split('\n')`: splits on every newline, keeping empties. -/
def splitNl : List Char → List (List Char)
  | [] => [[]]
  | c :: rest =>
    if c = '\n' then [] :: splitNl rest
    else
      match splitNl rest with
      | l :: ls => (c :: l) :: ls
      | [] => [[c]]

/-- Python `enumerate(lines, k)`. -/
def enumFrom1 {α : Type} : Nat → List α → List (Nat × α)
  | _, [] => []
  | k, x :: xs => (k, x) :: enumFrom1 (k + 1) xs

/-- Atoms of the regex fragment used by the script: a literal character, a
single-character class, or a greedy Kleene star over a class. -/
inductive RAtom : Type
  | lit (c : Char)
  | cls (p : Char → Bool)
  | star (p : Char → Bool)

/-- A pattern is a sequence of atoms. -/
abbrev Regex : Type := List RAtom

/-- The atoms of a literal string. -/
def litSeq (s : String) : Regex := s.toList.map RAtom.lit

/-- Greedy `+` over a class, as in Python: one mandatory character then a
greedy star. -/
def plusC (p : Char → Bool) : Regex := [RAtom.cls p, RAtom.star p]

/-- Backtracking matcher at the start of the input, with Python `re`'s
strategy: a greedy star first tries to consume a further character and only
on failure of that whole branch lets the remainder of the pattern match.
Returns the matched prefix and the rest of the input.  `fuel` only bounds
the recursion depth; every call either shortens the input or shortens the
pattern, so depth is at most `input length + pattern length + 1` and
`reMatch` below supplies enough fuel for the bound never to bite. -/
def matchSeq : Nat → Regex → List Char → Option (List Char × List Char)
  | 0, _, _ => none
  | _ + 1, [], s => some ([], s)
  | _ + 1, RAtom.lit _ :: _, [] => none
  | f + 1, RAtom.lit c :: ps, x :: s =>
    if x == c then (matchSeq f ps s).map (fun pr => (x :: pr.1, pr.2)) else none
  | _ + 1, RAtom.cls _ :: _, [] => none
  | f + 1, RAtom.cls p :: ps, x :: s =>
    if p x then (matchSeq f ps s).map (fun pr => (x :: pr.1, pr.2)) else none
  | f + 1, RAtom.star _ :: ps, [] => matchSeq f ps []
  | f + 1, RAtom.star p :: ps, x :: s =>
    if p x then
      match matchSeq f (RAtom.star p :: ps) s with
      | some pr => some (x :: pr.1, pr.2)
      | none => matchSeq f ps (x :: s)
    else matchSeq f ps (x :: s)

/-- Match `rx` at the start of `s` (Python `re.match`), with adequate fuel. -/
def reMatch (rx : Regex) (s : List Char) : Option (List Char × List Char) :=
  matchSeq (s.length + rx.length + 1) rx s

/-- Scanning loop of Python `re.findall`: try to match at each position,
restart after the end of a found match, advance one character otherwise.
(The empty-match branch mirrors `findall`'s advance-by-one rule; the four
patterns of the script all begin with a literal, so it never fires for
them.) -/
def findAllAux (rx : Regex) : Nat → List Char → List (List Char)
  | 0, _ => []
  | _ + 1, [] =>
    match reMatch rx [] with
    | some (m, _) => [m]
    | none => []
  | f + 1, x :: t =>
    match reMatch rx (x :: t) with
    | some ([], _) => [] :: findAllAux rx f t
    | some (m, r) => m :: findAllAux rx f r
    | none => findAllAux rx f t

/-- Python `re.findall(rx, s)` (each match consumes at least one character,
so `s.length + 1` steps always suffice). -/
def reFindAll (rx : Regex) (s : List Char) : List (List Char) :=
  findAllAux rx (s.length + 1) s

/-- `r"bg-\w+-50(?:\s|\"|\x60|\/)"`. -/
def patBg50 : Regex := litSeq "bg-" ++ plusC wordC ++ litSeq "-50" ++ [RAtom.cls delim50]

/-- `r"dark:bg-\w+-\d+/\d+"`. -/
def patDarkBg : Regex :=
  litSeq "dark:bg-" ++ plusC wordC ++ [RAtom.lit '-'] ++ plusC digitC
    ++ [RAtom.lit '/'] ++ plusC digitC

/-- `r"dark:hover:bg-\w+-\d+/\d+"`. -/
def patDarkHover : Regex :=
  litSeq "dark:hover:bg-" ++ plusC wordC ++ [RAtom.lit '-'] ++ plusC digitC
    ++ [RAtom.lit '/'] ++ plusC digitC

/-- `r"dark:border-\w+-\d+/\d+"`. -/
def patDarkBorder : Regex :=
  litSeq "dark:border-" ++ plusC wordC ++ [RAtom.lit '-'] ++ plusC digitC
    ++ [RAtom.lit '/'] ++ plusC digitC

/-- The `PATTERNS` dict of the script, in insertion order. -/
def PATTERNS : List (String × Regex) :=
  [("bg-*-50 (use -100)", patBg50),
   ("dark:bg-*-N/opacity", patDarkBg),
   ("dark:hover:bg-*-N/opacity", patDarkHover),
   ("dark:border-*-N/opacity", patDarkBorder)]

example : reFindAll patBg50 "className=\"bg-red-50 p-2\"".toList = ["bg-red-50 ".toList] := by
  decide

example : reFindAll patBg50 "bg-red-50".toList = [] := by decide

example : reFindAll patDarkBg "dark:bg-blue-900/50".toList = ["dark:bg-blue-900/50".toList] := by
  decide

example : reFindAll patDarkBg "dark:hover:bg-blue-900/50".toList = [] := by decide

example : reFindAll patDarkHover "dark:hover:bg-blue-900/50".toList
    = ["dark:hover:bg-blue-900/50".toList] := by decide

/-- One recorded match of `find_patterns_in_file`: 1-based line number,
matched text, and the stripped source line truncated to 100 characters. -/
structure ColorMatch where
  line : Nat
  text : String
  context : String
deriving Repr, DecidableEq

/-- A per-file scan result: the `defaultdict(list)` of the script as an
association list in key-first-insertion order. -/
abbrev ScanResult : Type := List (String × List ColorMatch)

/-- `results[k].append(v)` on a `defaultdict(list)`: appends to the entry
of `k`, creating it (at the end, per dict insertion order) if absent. -/
def dAppend {α : Type} (res : List (String × List α)) (k : String) (v : α) :
    List (String × List α) :=
  match res with
  | [] => [(k, [v])]
  | (k', vs) :: rest => if k' = k then (k', vs ++ [v]) :: rest else (k', vs) :: dAppend rest k v

/-- Dictionary lookup, defaulting to the empty list. -/
def lookupD {α : Type} (k : String) : List (String × List α) → List α
  | [] => []
  | (k', vs) :: rest => if k' = k then vs else lookupD k rest

/-- The focus-ring marker of the suppression exception. -/
def markerFocus : List Char := "focus:ring".toList

/-- The `-900` with 50% opacity suffix of the suppression exception. -/
def suffix90050 : List Char := "-900/50".toList

/-- The context string: `line.strip()[:100]`. -/
def ctxOf (line : List Char) : String := String.mk ((stripL line).take 100)

/-- The body of the innermost loop of `find_patterns_in_file`: skip the
match if the line contains the focus-ring marker and the matched text the
`-900/50` suffix, record it otherwise. -/
def guardStep (ln : Nat) (line : List Char) (nm : String) (r : ScanResult)
    (m : List Char) : ScanResult :=
  if hasSeg markerFocus line && hasSeg suffix90050 m then r
  else dAppend r nm ⟨ln, String.mk m, ctxOf line⟩

/-- The innermost loop of `find_patterns_in_file` for one line and one rule:
record every `findall` match except those suppressed by the focus-ring
exception. -/
def scanLineRule (ln : Nat) (line : List Char) (res : ScanResult) (nm : String)
    (rx : Regex) : ScanResult :=
  (reFindAll rx line).foldl (guardStep ln line nm) res

/-- The body of `find_patterns_in_file` after a successful read: split into
lines, enumerate from 1, and run every rule on every line. -/
def scanContent (c : List Char) : ScanResult :=
  (enumFrom1 1 (splitNl c)).foldl
    (fun res p => PATTERNS.foldl (fun r q => scanLineRule p.1 p.2 r q.1 q.2) res)
    []

example : scanContent "dark:bg-blue-900/50".toList
    = [("dark:bg-*-N/opacity", [⟨1, "dark:bg-blue-900/50", "dark:bg-blue-900/50"⟩])] := by
  decide

example : scanContent "focus:ring-blue-900/50".toList = [] := by decide

example : scanContent "const x = 1\nclassName=\"bg-red-50 p-2\"".toList
    = [("bg-*-50 (use -100)", [⟨2, "bg-red-50 ", "className=\"bg-red-50 p-2\""⟩])] := by
  decide

/-- The `IGNORE_PATTERNS` list.  Each entry of the script is a regular
expression whose only metacharacter is an escaped dot, so `re.search`
against it is exactly a literal substring test. -/
def IGNORE_PATTERNS : List (List Char) :=
  ["node_modules".toList, ".next".toList, "dist".toList,
   "lib/colors.ts".toList, "tailwind.config".toList]

/-- `should_ignore`: some ignore pattern occurs in the file path. -/
def should_ignore (filepath : List Char) : Bool :=
  IGNORE_PATTERNS.any (fun pat => hasSeg pat filepath)

/-- A file seen by the tree walk: its path, and either its text content or
the message of the exception its read raises. -/
structure SrcFile where
  path : String
  content : Except String (List Char)

/-- `find_patterns_in_file`: scan the content; a read failure is caught
before anything is recorded, so it yields the empty result. -/
def find_patterns_in_file (f : SrcFile) : ScanResult :=
  match f.content with
  | Except.ok c => scanContent c
  | Except.error _ => []

/-- The error line printed (via plain `print`) when a read fails; empty
list when the read succeeds. -/
def errLine (f : SrcFile) : List String :=
  match f.content with
  | Except.ok _ => []
  | Except.error e => ["Error reading " ++ f.path ++ ": " ++ e]

/-- Error output produced for a file by the walk: ignored files are
skipped before any read is attempted. -/
def fileErrs (f : SrcFile) : List String :=
  if should_ignore f.path.toList then [] else errLine f

/-- The aggregate: rule name ↦ file path ↦ matches, both levels in dict
insertion order. -/
abbrev Aggregate : Type := List (String × List (String × List ColorMatch))

/-- Plain dict assignment `d[k] = v`: overwrite in place, or append. -/
def dictAssign {α : Type} (d : List (String × α)) (k : String) (v : α) :
    List (String × α) :=
  match d with
  | [] => [(k, v)]
  | (k', v') :: rest => if k' = k then (k, v) :: rest else (k', v') :: dictAssign rest k v

/-- `all_results[rule][relp] = ms` on the nested defaultdict. -/
def aggAssign (a : Aggregate) (rule relp : String) (ms : List ColorMatch) : Aggregate :=
  match a with
  | [] => [(rule, [(relp, ms)])]
  | (r, files) :: rest =>
    if r = rule then (r, dictAssign files relp ms) :: rest
    else (r, files) :: aggAssign rest rule relp ms

/-- State threaded through the scan loop of `main`. -/
structure RunAcc where
  agg : Aggregate
  total : Nat
  errs : List String
deriving DecidableEq

/-- The aggregate/total part of one iteration of the scan loop. -/
def procAT (p : Aggregate × Nat) (f : SrcFile) : Aggregate × Nat :=
  if should_ignore f.path.toList then p
  else
    (find_patterns_in_file f).foldl
      (fun q pr => (aggAssign q.1 pr.1 f.path pr.2, q.2 + pr.2.length)) p

/-- One iteration of the scan loop of `main`: skip ignored files, scan the
rest, merge each rule's matches under the file's path, add their count to
the running total, and keep any error line printed during the read. -/
def procOne (acc : RunAcc) (f : SrcFile) : RunAcc :=
  if should_ignore f.path.toList then acc
  else
    let res := find_patterns_in_file f
    let st := res.foldl (fun q pr => (aggAssign q.1 pr.1 f.path pr.2, q.2 + pr.2.length))
      (acc.agg, acc.total)
    { agg := st.1, total := st.2, errs := acc.errs ++ errLine f }

/-- The scan loop of `main` over the files yielded by `rglob`. -/
def processFiles (fs : List SrcFile) : RunAcc :=
  fs.foldl procOne { agg := [], total := 0, errs := [] }

/-- Sum of the recorded match counts over all rules and files of the
aggregate. -/
def aggTotal (agg : Aggregate) : Nat :=
  (agg.map (fun pr => (pr.2.map (fun q => q.2.length)).sum)).sum

/-- All file paths stored anywhere in the aggregate. -/
def aggPaths (agg : Aggregate) : List String :=
  agg.flatMap (fun pr => pr.2.map Prod.fst)

/-- The file paths stored under one rule. -/
def pathsUnder (agg : Aggregate) (r : String) : List String :=
  (lookupD r agg).map Prod.fst

/-- `"=" * 70`. -/
def bar70 : String := String.mk (List.replicate 70 '=')

/-- The four header prints of `main`. -/
def headerLines : List String := [bar70, "HARDCODED COLOR SCANNER", bar70, ""]

/-- The key ordering used by the reporter's sorting: lexicographic string
comparison of the dict keys, as Python compares the item tuples (keys are
distinct, so the comparison never reaches the values). -/
def keyLe {α : Type} (p q : String × α) : Prop := p.1 ≤ q.1

instance {α : Type} (p q : String × α) : Decidable (keyLe p q) :=
  inferInstanceAs (Decidable (p.1 ≤ q.1))

instance {α : Type} : IsTotal (String × α) keyLe := ⟨fun p q => le_total p.1 q.1⟩

instance {α : Type} : IsTrans (String × α) keyLe := ⟨fun _ _ _ h1 h2 => le_trans h1 h2⟩

/-- Python `sorted` on dict items: a stable ascending sort by key. -/
def sortPairs {α : Type} (l : List (String × α)) : List (String × α) :=
  List.insertionSort keyLe l

/-- `print(f"    Line {m['line']}: {m['match']}")`. -/
def fmtMatch (m : ColorMatch) : String := "    Line " ++ toString m.line ++ ": " ++ m.text

/-- The prints emitted for one file inside a rule section: the file header,
the first five matches, and the `... and N more` note when more exist. -/
def fileBlock (fp : String) (ms : List ColorMatch) : List String :=
  ("\n  " ++ fp ++ ":") :: (ms.take 5).map fmtMatch
    ++ (if 5 < ms.length then ["    ... and " ++ toString (ms.length - 5) ++ " more"] else [])

/-- The four header prints of one rule section. -/
def sectionHeader (r : String) (files : List (String × List ColorMatch)) : List String :=
  ["\n" ++ bar70, "PATTERN: " ++ r,
   "Files: " ++ toString files.length ++ " | Occurrences: "
     ++ toString ((files.map (fun q => q.2.length)).sum),
   bar70]

/-- One rule section: header, then every file in sorted order. -/
def ruleSection (r : String) (files : List (String × List ColorMatch)) : List String :=
  sectionHeader r files ++ (sortPairs files).flatMap (fun q => fileBlock q.1 q.2)

/-- The grouped report: every rule in sorted order. -/
def reportLines (agg : Aggregate) : List String :=
  (sortPairs agg).flatMap (fun pr => ruleSection pr.1 pr.2)

/-- The summary block of `main`. -/
def summaryLines (agg : Aggregate) (total : Nat) : List String :=
  ["\n" ++ bar70, "SUMMARY", bar70, "Total issues found: " ++ toString total, ""]
    ++ (sortPairs agg).map (fun pr =>
        "  " ++ pr.1 ++ ": " ++ toString ((pr.2.map (fun q => q.2.length)).sum)
          ++ " occurrences in " ++ toString pr.2.length ++ " files")
    ++ ["", "Fix these by importing from @/lib/colors:",
        "  - softBgColors, verySoftBgColors for backgrounds",
        "  - hoverBgColors for hover states",
        "  - infoBannerColors for info boxes",
        "  - alertColors for alerts/messages", ""]

/-- Everything `main` prints to standard output, one element per `print`
call: the header, then (during the scan loop) one error line per failed
read of a non-ignored file, then the grouped report, then the summary. -/
def mainStdout (fs : List SrcFile) : List String :=
  let run := processFiles fs
  headerLines ++ run.errs ++ reportLines run.agg ++ summaryLines run.agg run.total

/-- The script never writes to standard error: its only error report is a
plain `print`, which goes to standard output. -/
def mainStderr (_fs : List SrcFile) : List String := []

example : mainStderr [⟨"app/Broken.tsx", Except.error "boom"⟩] = [] := rfl

example : ("Error reading app/Broken.tsx: boom")
    ∈ mainStdout [⟨"app/Broken.tsx", Except.error "boom"⟩] := by decide

/-- A `foldl` preserves any invariant its step preserves. -/
theorem foldl_inv {α β : Type} (Inv : β → Prop) (g : β → α → β) :
    ∀ (l : List α) (acc : β), (∀ b a, a ∈ l → Inv b → Inv (g b a)) → Inv acc →
      Inv (l.foldl g acc)
  | [], _, _, h0 => h0
  | x :: xs, acc, h, h0 =>
    foldl_inv Inv g xs (g acc x)
      (fun b a ha hb => h b a (List.mem_cons_of_mem _ ha) hb)
      (h acc x (List.mem_cons_self _ _) h0)

/-- The error stream a step appends is independent of the aggregate and the
aggregate/total it computes is independent of the error stream. -/
theorem procOne_eq (acc : RunAcc) (f : SrcFile) :
    procOne acc f =
      { agg := (procAT (acc.agg, acc.total) f).1,
        total := (procAT (acc.agg, acc.total) f).2,
        errs := acc.errs ++ fileErrs f } := by
  by_cases h : should_ignore f.path.data = true <;>
    simp [procOne, procAT, fileErrs, h]

/-- Separation of the scan loop: the aggregate and total come from the
`procAT` fold alone, and the error lines are exactly the concatenation of
the per-file error output, in file order. -/
theorem foldl_procOne_eq :
    ∀ (fs : List SrcFile) (acc : RunAcc),
      fs.foldl procOne acc =
        { agg := (fs.foldl procAT (acc.agg, acc.total)).1,
          total := (fs.foldl procAT (acc.agg, acc.total)).2,
          errs := acc.errs ++ fs.flatMap fileErrs } := by
  intro fs
  induction fs with
  | nil => intro acc; simp
  | cons f fs ih =>
    intro acc
    show fs.foldl procOne (procOne acc f) = _
    rw [ih, procOne_eq]
    simp [List.append_assoc]

theorem processFiles_append (fs1 fs2 : List SrcFile) :
    processFiles (fs1 ++ fs2) = fs2.foldl procOne (processFiles fs1) := by
  simp [processFiles, List.foldl_append]

/-- `dictAssign` introduces no key other than the assigned one. -/
theorem dictAssign_fst {α : Type} :
    ∀ (d : List (String × α)) (k : String) (v : α) (x : String),
      x ∈ (dictAssign d k v).map Prod.fst → x ∈ d.map Prod.fst ∨ x = k := by
  intro d k v
  induction d with
  | nil => intro x hx; simp [dictAssign] at hx; simp [hx]
  | cons p rest ih =>
    intro x hx
    by_cases h : p.1 = k
    · simp [dictAssign, h] at hx
      rcases hx with hx | hx
      · right; exact hx
      · left; simp [hx]
    · simp [dictAssign, h] at hx
      rcases hx with hx | hx
      · left; simp [hx]
      · rcases ih x (by simpa using hx) with h' | h'
        · left; simp at h' ⊢; right; exact h'
        · right; exact h'

/-- `aggAssign` introduces no file path other than the assigned one. -/
theorem aggAssign_paths :
    ∀ (a : Aggregate) (rule relp : String) (ms : List ColorMatch) (x : String),
      x ∈ aggPaths (aggAssign a rule relp ms) → x ∈ aggPaths a ∨ x = relp := by
  intro a rule relp ms
  induction a with
  | nil => intro x hx; simp [aggAssign, aggPaths, dictAssign] at hx; simp [hx]
  | cons p rest ih =>
    intro x hx
    by_cases h : p.1 = rule
    · simp [aggAssign, h, aggPaths] at hx
      rcases hx with hx | hx
      · rcases dictAssign_fst p.2 relp ms x (by simpa using hx) with h' | h'
        · left; simp [aggPaths]; left; simpa using h'
        · right; exact h'
      · left; simp [aggPaths]; right; exact hx
    · simp [aggAssign, h, aggPaths] at hx
      rcases hx with hx | hx
      · left; simp [aggPaths]; left; exact hx
      · rcases ih x (by simpa [aggPaths] using hx) with h' | h'
        · left; simp [aggPaths] at h' ⊢; right; exact h'
        · right; exact h'

/-- Processing one file adds no path to the aggregate other than its own. -/
theorem procAT_paths (p : Aggregate × Nat) (f : SrcFile) (x : String)
    (hx : x ∈ aggPaths (procAT p f).1) : x ∈ aggPaths p.1 ∨ x = f.path := by
  by_cases h : should_ignore f.path.data = true
  · simp [procAT, h] at hx; left; exact hx
  · refine foldl_inv
      (fun q => x ∈ aggPaths q.1 → x ∈ aggPaths p.1 ∨ x = f.path)
      (fun q pr => (aggAssign q.1 pr.1 f.path pr.2, q.2 + pr.2.length))
      (find_patterns_in_file f) p ?_ (fun hq => Or.inl hq) ?_
    · intro b a _ hb hmem
      rcases aggAssign_paths b.1 a.1 f.path a.2 x hmem with h' | h'
      · exact hb h'
      · right; exact h'
    · simpa [procAT, h] using hx

/-- The scan loop adds no path to the aggregate other than those of the
processed files. -/
theorem foldl_procOne_paths :
    ∀ (fs : List SrcFile) (acc : RunAcc) (x : String),
      x ∈ aggPaths (fs.foldl procOne acc).agg →
      x ∈ aggPaths acc.agg ∨ x ∈ fs.map SrcFile.path := by
  intro fs
  induction fs with
  | nil => intro acc x hx; left; exact hx
  | cons f fs ih =>
    intro acc x hx
    rcases ih (procOne acc f) x hx with h' | h'
    · rw [procOne_eq] at h'
      rcases procAT_paths (acc.agg, acc.total) f x h' with h'' | h''
      · left; exact h''
      · right; simp [h'']
    · right; simp [h']

/-- C1: for a non-ignored file whose read fails, the scan of that file
yields the empty result, exactly one error line referencing its path is
logged (inserted between the error output of the earlier and the later
files), the aggregate and the total are exactly those of the run without
the failing file (so every other file is still scanned and reported), and
the failing file's path appears nowhere in the aggregate. -/
theorem unreadable_file_isolated (fs1 fs2 : List SrcFile) (f : SrcFile) (e : String)
    (hc : f.content = Except.error e) (hig : should_ignore f.path.data = false) :
    find_patterns_in_file f = [] ∧
    (processFiles (fs1 ++ f :: fs2)).agg = (processFiles (fs1 ++ fs2)).agg ∧
    (processFiles (fs1 ++ f :: fs2)).total = (processFiles (fs1 ++ fs2)).total ∧
    (processFiles (fs1 ++ f :: fs2)).errs =
      (processFiles fs1).errs
        ++ ("Error reading " ++ f.path ++ ": " ++ e) :: (processFiles fs2).errs ∧
    (f.path ∉ (fs1 ++ fs2).map SrcFile.path →
      f.path ∉ aggPaths (processFiles (fs1 ++ f :: fs2)).agg) := by
  have hscan : find_patterns_in_file f = [] := by
    simp [find_patterns_in_file, hc]
  have hstep : procOne (processFiles fs1) f =
      { agg := (processFiles fs1).agg, total := (processFiles fs1).total,
        errs := (processFiles fs1).errs
          ++ ["Error reading " ++ f.path ++ ": " ++ e] } := by
    simp [procOne, hig, hscan, errLine, hc]
  have hrun : processFiles (fs1 ++ f :: fs2) =
      { agg := (fs2.foldl procAT ((processFiles fs1).agg, (processFiles fs1).total)).1,
        total := (fs2.foldl procAT ((processFiles fs1).agg, (processFiles fs1).total)).2,
        errs := ((processFiles fs1).errs ++ ["Error reading " ++ f.path ++ ": " ++ e])
          ++ fs2.flatMap fileErrs } := by
    have : processFiles (fs1 ++ f :: fs2) = fs2.foldl procOne (procOne (processFiles fs1) f) := by
      simp [processFiles, List.foldl_append]
    rw [this, hstep, foldl_procOne_eq]
  have hrun' : processFiles (fs1 ++ fs2) =
      { agg := (fs2.foldl procAT ((processFiles fs1).agg, (processFiles fs1).total)).1,
        total := (fs2.foldl procAT ((processFiles fs1).agg, (processFiles fs1).total)).2,
        errs := (processFiles fs1).errs ++ fs2.flatMap fileErrs } := by
    rw [processFiles_append, foldl_procOne_eq]
  have herrs2 : (processFiles fs2).errs = fs2.flatMap fileErrs := by
    show (fs2.foldl procOne { agg := [], total := 0, errs := [] }).errs = _
    rw [foldl_procOne_eq]; simp
  refine ⟨hscan, by rw [hrun, hrun'], by rw [hrun, hrun'], ?_, ?_⟩
  · rw [hrun, herrs2]; simp
  · intro hfresh hmem
    rw [hrun] at hmem
    have hmem' : f.path ∈ aggPaths (processFiles (fs1 ++ fs2)).agg := by
      rw [hrun']; exact hmem
    rcases foldl_procOne_paths (fs1 ++ fs2) _ f.path hmem' with h' | h'
    · simp [aggPaths] at h'
    · exact hfresh h'

/-- C1 witness at a concrete run: a middle file with a failing read is
isolated and the two readable files around it are still reported. -/
theorem unreadable_file_isolated_witness :
    (⟨"app/Bad.tsx", Except.error "boom"⟩ : SrcFile).content = Except.error "boom" ∧
    should_ignore ("app/Bad.tsx" : String).data = false ∧
    ((processFiles
        [⟨"app/A.tsx", Except.ok "dark:bg-blue-900/50".toList⟩,
         ⟨"app/Bad.tsx", Except.error "boom"⟩,
         ⟨"app/B.tsx", Except.ok "className=\"bg-red-50 p-2\"".toList⟩]).agg =
      (processFiles
        [⟨"app/A.tsx", Except.ok "dark:bg-blue-900/50".toList⟩,
         ⟨"app/B.tsx", Except.ok "className=\"bg-red-50 p-2\"".toList⟩]).agg) := by
  refine ⟨rfl, by decide, ?_⟩
  exact (unreadable_file_isolated
    [⟨"app/A.tsx", Except.ok "dark:bg-blue-900/50".toList⟩]
    [⟨"app/B.tsx", Except.ok "className=\"bg-red-50 p-2\"".toList⟩]
    ⟨"app/Bad.tsx", Except.error "boom"⟩ "boom" rfl (by decide)).2.1

/-- C2: a file whose path matches an exclusion pattern is skipped before
any scan: the whole run (aggregate, total and error output) is the run
without it, and its path appears nowhere in the aggregate — whatever its
content. -/
theorem excluded_file_skipped (fs1 fs2 : List SrcFile) (f : SrcFile)
    (hig : should_ignore f.path.data = true) :
    processFiles (fs1 ++ f :: fs2) = processFiles (fs1 ++ fs2) ∧
    (f.path ∉ (fs1 ++ fs2).map SrcFile.path →
      f.path ∉ aggPaths (processFiles (fs1 ++ f :: fs2)).agg) := by
  have hskip : procOne (processFiles fs1) f = processFiles fs1 := by
    simp [procOne, hig]
  have heq : processFiles (fs1 ++ f :: fs2) = processFiles (fs1 ++ fs2) := by
    have h1 : processFiles (fs1 ++ f :: fs2)
        = fs2.foldl procOne (procOne (processFiles fs1) f) := by
      simp [processFiles, List.foldl_append]
    rw [h1, hskip, ← processFiles_append]
  refine ⟨heq, ?_⟩
  intro hfresh hmem
  rw [heq] at hmem
  rcases foldl_procOne_paths (fs1 ++ fs2) _ f.path hmem with h' | h'
  · simp [aggPaths] at h'
  · exact hfresh h'

/-- C2 witness at a concrete run: a `node_modules` file whose content
matches a rule pattern contributes nothing. -/
theorem excluded_file_skipped_witness :
    should_ignore ("app/node_modules/X.tsx" : String).data = true ∧
    processFiles
        [⟨"app/A.tsx", Except.ok "dark:bg-blue-900/50".toList⟩,
         ⟨"app/node_modules/X.tsx", Except.ok "dark:bg-blue-900/50".toList⟩] =
      processFiles [⟨"app/A.tsx", Except.ok "dark:bg-blue-900/50".toList⟩] := by
  refine ⟨by decide, ?_⟩
  exact (excluded_file_skipped
    [⟨"app/A.tsx", Except.ok "dark:bg-blue-900/50".toList⟩] []
    ⟨"app/node_modules/X.tsx", Except.ok "dark:bg-blue-900/50".toList⟩ (by decide)).1

/-- C4 counterexample: at a run over one unreadable file, the read-failure
error line appears on standard output (the script's error report is a
plain `print`) and nothing at all is written to standard error — the
claim that error lines go to standard error and never to standard output
is false. -/
theorem error_stream_counterexample :
    ("Error reading app/Broken.tsx: boom")
        ∈ mainStdout [⟨"app/Broken.tsx", Except.error "boom"⟩] ∧
    mainStderr [⟨"app/Broken.tsx", Except.error "boom"⟩] = [] := by
  exact ⟨by decide, rfl⟩

/-- C4 amended: the report text and the per-file read-failure error lines
are all written to standard output (each failed read of a non-ignored
file contributes its error line there), and nothing is ever written to
standard error. -/
theorem errors_on_stdout (fs : List SrcFile) (f : SrcFile) (e : String)
    (hmem : f ∈ fs) (hig : should_ignore f.path.data = false)
    (hc : f.content = Except.error e) :
    ("Error reading " ++ f.path ++ ": " ++ e) ∈ mainStdout fs ∧ mainStderr fs = [] := by
  refine ⟨?_, rfl⟩
  have herrs : (processFiles fs).errs = fs.flatMap fileErrs := by
    show (fs.foldl procOne { agg := [], total := 0, errs := [] }).errs = _
    rw [foldl_procOne_eq]; simp
  have hline : ("Error reading " ++ f.path ++ ": " ++ e) ∈ fileErrs f := by
    simp [fileErrs, hig, errLine, hc]
  have hmem' : ("Error reading " ++ f.path ++ ": " ++ e) ∈ (processFiles fs).errs := by
    rw [herrs]
    exact List.mem_flatMap.mpr ⟨f, hmem, hline⟩
  unfold mainStdout
  simp only [List.mem_append]
  left; left; right
  exact hmem'

/-- C4 amended witness at a concrete run. -/
theorem errors_on_stdout_witness :
    (⟨"app/Broken.tsx", Except.error "boom"⟩ : SrcFile)
        ∈ [(⟨"app/Broken.tsx", Except.error "boom"⟩ : SrcFile)] ∧
    ("Error reading app/Broken.tsx: boom")
        ∈ mainStdout [⟨"app/Broken.tsx", Except.error "boom"⟩] ∧
    mainStderr [⟨"app/Broken.tsx", Except.error "boom"⟩] = [] := by
  refine ⟨List.mem_singleton.mpr rfl, ?_⟩
  exact errors_on_stdout [⟨"app/Broken.tsx", Except.error "boom"⟩]
    ⟨"app/Broken.tsx", Except.error "boom"⟩ "boom"
    (List.mem_singleton.mpr rfl) (by decide) rfl

/-- C6: a file containing the line `dark:bg-blue-900/50` yields exactly one
match in its scan result, under the "dark mode background opacity" rule and
under no other rule, with matched text `dark:bg-blue-900/50`. -/
theorem dark_bg_example_scan :
    scanContent "dark:bg-blue-900/50".toList
      = [("dark:bg-*-N/opacity", [⟨1, "dark:bg-blue-900/50", "dark:bg-blue-900/50"⟩])] := by
  decide

/-- Appending under key `k` extends exactly the entry of `k`. -/
theorem lookupD_dAppend_eq {α : Type} :
    ∀ (res : List (String × List α)) (k : String) (v : α),
      lookupD k (dAppend res k v) = lookupD k res ++ [v] := by
  intro res k v
  induction res with
  | nil => simp [dAppend, lookupD]
  | cons p rest ih =>
    by_cases h : p.1 = k
    · simp [dAppend, lookupD, h]
    · simp [dAppend, lookupD, h, ih]

/-- Appending under another key leaves the entry of `k` unchanged. -/
theorem lookupD_dAppend_ne {α : Type} :
    ∀ (res : List (String × List α)) (k k' : String) (v : α), k' ≠ k →
      lookupD k (dAppend res k' v) = lookupD k res := by
  intro res k k' v hne
  induction res with
  | nil => simp [dAppend, lookupD, hne]
  | cons p rest ih =>
    by_cases h : p.1 = k'
    · simp [dAppend, lookupD, h, hne, Ne.symm hne]
    · by_cases h2 : p.1 = k
      · simp [dAppend, lookupD, h, h2, Ne.symm hne]
      · simp [dAppend, lookupD, h, h2, ih]

/-- Recording step on a suppressed match: nothing is recorded. -/
theorem guardStep_true (ln : Nat) (line : List Char) (nm : String) (r : ScanResult)
    (m : List Char) (h : (hasSeg markerFocus line && hasSeg suffix90050 m) = true) :
    guardStep ln line nm r m = r := by
  simp [guardStep, h]

/-- Recording step on a kept match: it is appended under the rule name. -/
theorem guardStep_false (ln : Nat) (line : List Char) (nm : String) (r : ScanResult)
    (m : List Char) (h : (hasSeg markerFocus line && hasSeg suffix90050 m) = false) :
    guardStep ln line nm r m = dAppend r nm ⟨ln, String.mk m, ctxOf line⟩ := by
  simp [guardStep, h]

/-- The guarded fold of the scanner appends, in order, exactly the matches
on which the suppression condition is false. -/
theorem foldl_guard_lookup (ln : Nat) (line : List Char) (nm : String) :
    ∀ (ms : List (List Char)) (res : ScanResult),
      lookupD nm (ms.foldl (guardStep ln line nm) res)
        = lookupD nm res
          ++ (ms.filter (fun m => !(hasSeg markerFocus line && hasSeg suffix90050 m))).map
              (fun m => ⟨ln, String.mk m, ctxOf line⟩) := by
  intro ms
  induction ms with
  | nil => intro res; simp
  | cons m ms ih =>
    intro res
    rw [List.foldl_cons, List.filter_cons]
    cases h : hasSeg markerFocus line && hasSeg suffix90050 m with
    | true =>
      rw [guardStep_true ln line nm res m h, ih res]
      simp
    | false =>
      rw [guardStep_false ln line nm res m h,
        ih (dAppend res nm ⟨ln, String.mk m, ctxOf line⟩), lookupD_dAppend_eq]
      simp

/-- C3: on every line, the matches a rule records are exactly its `findall`
matches minus those suppressed by the focus-ring exception — a match is
dropped precisely when the line contains the focus-ring marker AND the
matched text contains the `-900/50` suffix, and the other matches of the
same line are kept in order.  In particular a file containing
`focus:ring-blue-900/50` is not reported at all, while a file containing
`dark:hover:bg-blue-900/50` (no marker) is reported under the
hover-opacity rule. -/
theorem focus_ring_suppression :
    (∀ (ln : Nat) (line : List Char) (res : ScanResult) (nm : String) (rx : Regex),
      lookupD nm (scanLineRule ln line res nm rx)
        = lookupD nm res
          ++ ((reFindAll rx line).filter
                (fun m => !(hasSeg markerFocus line && hasSeg suffix90050 m))).map
              (fun m => ⟨ln, String.mk m, ctxOf line⟩)) ∧
    scanContent "focus:ring-blue-900/50".toList = [] ∧
    scanContent "dark:hover:bg-blue-900/50".toList
      = [("dark:hover:bg-*-N/opacity",
          [⟨1, "dark:hover:bg-blue-900/50", "dark:hover:bg-blue-900/50"⟩])] := by
  refine ⟨?_, by decide, by decide⟩
  intro ln line res nm rx
  exact foldl_guard_lookup ln line nm (reFindAll rx line) res

/-- `dAppend` never stores an empty match list. -/
theorem dAppend_ne_nil {α : Type} :
    ∀ (res : List (String × List α)) (k : String) (v : α),
      (∀ pr ∈ res, pr.2 ≠ []) → ∀ pr ∈ dAppend res k v, pr.2 ≠ [] := by
  intro res k v h
  induction res with
  | nil => intro pr hpr; simp [dAppend] at hpr; simp [hpr]
  | cons p rest ih =>
    intro pr hpr
    by_cases hk : p.1 = k
    · simp [dAppend, hk] at hpr
      rcases hpr with hpr | hpr
      · simp [hpr]
      · exact h pr (List.mem_cons_of_mem _ hpr)
    · simp [dAppend, hk] at hpr
      rcases hpr with hpr | hpr
      · exact h pr (by simp [hpr])
      · exact ih (fun q hq => h q (List.mem_cons_of_mem _ hq)) pr (by simpa using hpr)

/-- The per-line recording loop never stores an empty match list. -/
theorem scanLineRule_ne_nil (ln : Nat) (line : List Char) (nm : String) (rx : Regex)
    (res : ScanResult) (h : ∀ pr ∈ res, pr.2 ≠ []) :
    ∀ pr ∈ scanLineRule ln line res nm rx, pr.2 ≠ [] := by
  refine foldl_inv (fun r => ∀ pr ∈ r, pr.2 ≠ []) (guardStep ln line nm)
    (reFindAll rx line) res ?_ h
  intro b m _ hb
  cases hc : hasSeg markerFocus line && hasSeg suffix90050 m with
  | true => rw [guardStep_true ln line nm b m hc]; exact hb
  | false => rw [guardStep_false ln line nm b m hc]; exact dAppend_ne_nil b nm _ hb

/-- A per-file scan result never contains an empty match list. -/
theorem scanContent_ne_nil (c : List Char) : ∀ pr ∈ scanContent c, pr.2 ≠ [] := by
  refine foldl_inv (fun res => ∀ pr ∈ res, pr.2 ≠ [])
    (fun res p => PATTERNS.foldl (fun r q => scanLineRule p.1 p.2 r q.1 q.2) res)
    (enumFrom1 1 (splitNl c)) [] ?_ (by simp)
  intro b a _ hb
  refine foldl_inv (fun res => ∀ pr ∈ res, pr.2 ≠ [])
    (fun r q => scanLineRule a.1 a.2 r q.1 q.2) PATTERNS b ?_ hb
  intro b2 q _ hb2
  exact scanLineRule_ne_nil a.1 a.2 q.1 q.2 b2 hb2

/-- `dictAssign` preserves a property of all stored values when the
assigned value has it. -/
theorem dictAssign_vals {α : Type} (P : α → Prop) :
    ∀ (d : List (String × α)) (k : String) (v : α),
      (∀ q ∈ d, P q.2) → P v → ∀ q ∈ dictAssign d k v, P q.2 := by
  intro d k v h hv
  induction d with
  | nil => intro q hq; simp [dictAssign] at hq; simp [hq, hv]
  | cons p rest ih =>
    intro q hq
    by_cases hk : p.1 = k
    · simp [dictAssign, hk] at hq
      rcases hq with hq | hq
      · simp [hq, hv]
      · exact h q (List.mem_cons_of_mem _ hq)
    · simp [dictAssign, hk] at hq
      rcases hq with hq | hq
      · exact h q (by simp [hq])
      · exact ih (fun r hr => h r (List.mem_cons_of_mem _ hr)) q (by simpa using hq)

/-- `aggAssign` keeps every stored match list non-empty when the assigned
one is. -/
theorem aggAssign_vals :
    ∀ (a : Aggregate) (rule relp : String) (ms : List ColorMatch),
      (∀ pr ∈ a, ∀ q ∈ pr.2, q.2 ≠ []) → ms ≠ [] →
      ∀ pr ∈ aggAssign a rule relp ms, ∀ q ∈ pr.2, q.2 ≠ [] := by
  intro a rule relp ms h hms
  induction a with
  | nil =>
    intro pr hpr
    simp [aggAssign] at hpr
    intro q hq
    rw [hpr] at hq
    simp at hq
    simp [hq, hms]
  | cons p rest ih =>
    intro pr hpr
    by_cases hk : p.1 = rule
    · simp [aggAssign, hk] at hpr
      rcases hpr with hpr | hpr
      · rw [hpr]
        exact dictAssign_vals (fun l => l ≠ []) p.2 relp ms
          (fun q hq => h p (List.mem_cons_self _ _) q hq) hms
      · exact h pr (List.mem_cons_of_mem _ hpr)
    · simp [aggAssign, hk] at hpr
      rcases hpr with hpr | hpr
      · exact h pr (by simp [hpr])
      · exact ih (fun r hr => h r (List.mem_cons_of_mem _ hr)) pr (by simpa using hpr)

/-- The whole run never stores an empty match list in the aggregate. -/
theorem processFiles_vals (fs : List SrcFile) :
    ∀ pr ∈ (processFiles fs).agg, ∀ q ∈ pr.2, q.2 ≠ [] := by
  refine foldl_inv (fun acc => ∀ pr ∈ acc.agg, ∀ q ∈ pr.2, q.2 ≠ []) procOne fs
    { agg := [], total := 0, errs := [] } ?_ (by simp)
  intro acc f _ hacc
  rw [procOne_eq]
  show ∀ pr ∈ (procAT (acc.agg, acc.total) f).1, ∀ q ∈ pr.2, q.2 ≠ []
  by_cases hig : should_ignore f.path.data = true
  · simpa [procAT, hig] using hacc
  · have hfold : (procAT (acc.agg, acc.total) f) =
        (find_patterns_in_file f).foldl
          (fun q pr => (aggAssign q.1 pr.1 f.path pr.2, q.2 + pr.2.length))
          (acc.agg, acc.total) := by
      simp [procAT, hig]
    rw [hfold]
    have hscan : ∀ pr ∈ find_patterns_in_file f, pr.2 ≠ [] := by
      cases hcon : f.content with
      | ok c =>
        intro pr hpr
        exact scanContent_ne_nil c pr (by simpa [find_patterns_in_file, hcon] using hpr)
      | error e => simp [find_patterns_in_file, hcon]
    refine foldl_inv (fun st => ∀ pr ∈ st.1, ∀ q ∈ pr.2, q.2 ≠ [])
      (fun q pr => (aggAssign q.1 pr.1 f.path pr.2, q.2 + pr.2.length))
      (find_patterns_in_file f) (acc.agg, acc.total) ?_ hacc
    intro b a ha hb
    exact aggAssign_vals b.1 a.1 f.path a.2 hb (hscan a ha)

/-- C9: every rule entry of a per-file scan result, and every (rule, file)
entry of the aggregate, holds a non-empty sequence of matches: a key only
comes into being when a surviving match is appended under it, and only
non-empty per-file lists are merged into the aggregate. -/
theorem nonempty_entries_invariant :
    (∀ (c : List Char) (pr : String × List ColorMatch), pr ∈ scanContent c → pr.2 ≠ []) ∧
    (∀ (fs : List SrcFile) (pr : String × List (String × List ColorMatch))
        (q : String × List ColorMatch),
      pr ∈ (processFiles fs).agg → q ∈ pr.2 → q.2 ≠ []) := by
  exact ⟨fun c pr hpr => scanContent_ne_nil c pr hpr,
    fun fs pr q hpr hq => processFiles_vals fs pr hpr q hq⟩

/-- C9 witness at a concrete scan result and run. -/
theorem nonempty_entries_invariant_witness :
    (("dark:bg-*-N/opacity", [(⟨1, "dark:bg-blue-900/50", "dark:bg-blue-900/50"⟩ : ColorMatch)])
        ∈ scanContent "dark:bg-blue-900/50".toList) ∧
    [(⟨1, "dark:bg-blue-900/50", "dark:bg-blue-900/50"⟩ : ColorMatch)] ≠ [] := by
  refine ⟨by decide, ?_⟩
  exact nonempty_entries_invariant.1 "dark:bg-blue-900/50".toList
    ("dark:bg-*-N/opacity", [⟨1, "dark:bg-blue-900/50", "dark:bg-blue-900/50"⟩])
    (by decide)

/-- `dAppend` preserves a per-key property of all stored elements when the
appended element satisfies it at its key. -/
theorem dAppend_all {α : Type} (P : String → α → Prop) :
    ∀ (res : List (String × List α)) (k : String) (v : α),
      (∀ pr ∈ res, ∀ m ∈ pr.2, P pr.1 m) → P k v →
      ∀ pr ∈ dAppend res k v, ∀ m ∈ pr.2, P pr.1 m := by
  intro res k v h hv
  induction res with
  | nil =>
    intro pr hpr m hm
    simp [dAppend] at hpr
    rw [hpr] at hm ⊢
    simp at hm
    simp [hm, hv]
  | cons p rest ih =>
    intro pr hpr
    by_cases hk : p.1 = k
    · simp [dAppend, hk] at hpr
      rcases hpr with hpr | hpr
      · intro m hm
        rw [hpr] at hm ⊢
        simp at hm
        rcases hm with hm | hm
        · exact hk ▸ h p (List.mem_cons_self _ _) m (by simp [hm])
        · rw [hm]; exact hv
      · exact h pr (List.mem_cons_of_mem _ hpr)
    · simp [dAppend, hk] at hpr
      rcases hpr with hpr | hpr
      · exact h pr (by simp [hpr])
      · exact ih (fun r hr => h r (List.mem_cons_of_mem _ hr)) pr (by simpa using hpr)

/-- `enumFrom1 k l` pairs every element with its position counted from
`k`, staying within bounds. -/
theorem enumFrom1_spec {α : Type} (d : α) :
    ∀ (k : Nat) (l : List α) (p : Nat × α), p ∈ enumFrom1 k l →
      k ≤ p.1 ∧ p.1 < k + l.length ∧ l.getD (p.1 - k) d = p.2 := by
  intro k l
  induction l generalizing k with
  | nil => intro p hp; simp [enumFrom1] at hp
  | cons x xs ih =>
    intro p hp
    simp only [enumFrom1, List.mem_cons] at hp
    rcases hp with hp | hp
    · rw [hp]
      refine ⟨le_refl _, by simp, by simp⟩
    · obtain ⟨h1, h2, h3⟩ := ih (k + 1) p hp
      refine ⟨by omega, by simp at h2 ⊢; omega, ?_⟩
      have hdk : p.1 - k = (p.1 - (k + 1)) + 1 := by omega
      rw [hdk]
      simpa using h3

/-- The property of a recorded match: its line number is a 1-based index
of a physical line and its text is a `findall` match of that line under
the match's rule. -/
def MatchOk (lines : List (List Char)) (r : String) (m : ColorMatch) : Prop :=
  1 ≤ m.line ∧ m.line ≤ lines.length ∧
    ∃ rx, (r, rx) ∈ PATTERNS ∧ m.text.toList ∈ reFindAll rx (lines.getD (m.line - 1) [])

/-- Every match a scan records satisfies `MatchOk` for the file's lines. -/
theorem scanContent_match_ok (c : List Char) :
    ∀ pr ∈ scanContent c, ∀ m ∈ pr.2, MatchOk (splitNl c) pr.1 m := by
  refine foldl_inv (fun res => ∀ pr ∈ res, ∀ m ∈ pr.2, MatchOk (splitNl c) pr.1 m)
    (fun res p => PATTERNS.foldl (fun r q => scanLineRule p.1 p.2 r q.1 q.2) res)
    (enumFrom1 1 (splitNl c)) [] ?_ (by simp)
  intro b a ha hb
  obtain ⟨h1, h2, h3⟩ := enumFrom1_spec [] 1 (splitNl c) a ha
  refine foldl_inv (fun res => ∀ pr ∈ res, ∀ m ∈ pr.2, MatchOk (splitNl c) pr.1 m)
    (fun r q => scanLineRule a.1 a.2 r q.1 q.2) PATTERNS b ?_ hb
  intro b2 q hq hb2
  refine foldl_inv (fun res => ∀ pr ∈ res, ∀ m ∈ pr.2, MatchOk (splitNl c) pr.1 m)
    (guardStep a.1 a.2 q.1) (reFindAll q.2 a.2) b2 ?_ hb2
  intro b3 m hm hb3
  cases hc : hasSeg markerFocus a.2 && hasSeg suffix90050 m with
  | true => rw [guardStep_true a.1 a.2 q.1 b3 m hc]; exact hb3
  | false =>
    rw [guardStep_false a.1 a.2 q.1 b3 m hc]
    refine dAppend_all (MatchOk (splitNl c)) b3 q.1 _ hb3 ?_
    refine ⟨h1, ?_, q.2, hq, ?_⟩
    · show a.1 ≤ (splitNl c).length
      omega
    show (String.mk m).toList ∈ reFindAll q.2 ((splitNl c).getD (a.1 - 1) [])
    rw [h3]
    simpa using hm

/-- C5: every recorded match's line number is 1-based, within the file's
line count, and its matched text is a `findall` match of exactly that
physical line (index `line - 1`); in particular a file whose second line
is `className="bg-red-50 p-2"` yields exactly one match, under the
"-50 shade" rule, with matched text `bg-red-50 ` (trailing delimiter
included) and line number 2. -/
theorem line_numbers_one_based :
    (∀ (c : List Char) (pr : String × List ColorMatch) (m : ColorMatch),
      pr ∈ scanContent c → m ∈ pr.2 →
      1 ≤ m.line ∧ m.line ≤ (splitNl c).length ∧
      ∃ rx, (pr.1, rx) ∈ PATTERNS ∧
        m.text.toList ∈ reFindAll rx ((splitNl c).getD (m.line - 1) [])) ∧
    scanContent "const x = 1\nclassName=\"bg-red-50 p-2\"".toList
      = [("bg-*-50 (use -100)", [⟨2, "bg-red-50 ", "className=\"bg-red-50 p-2\""⟩])] := by
  refine ⟨?_, by decide⟩
  intro c pr m hpr hm
  exact scanContent_match_ok c pr hpr m hm

/-- C5 witness at the concrete two-line file. -/
theorem line_numbers_one_based_witness :
    (("bg-*-50 (use -100)",
        [(⟨2, "bg-red-50 ", "className=\"bg-red-50 p-2\""⟩ : ColorMatch)])
      ∈ scanContent "const x = 1\nclassName=\"bg-red-50 p-2\"".toList) ∧
    (1 ≤ 2 ∧ 2 ≤ (splitNl "const x = 1\nclassName=\"bg-red-50 p-2\"".toList).length ∧
      ∃ rx, ("bg-*-50 (use -100)", rx) ∈ PATTERNS ∧
        ("bg-red-50 " : String).toList
          ∈ reFindAll rx
              ((splitNl "const x = 1\nclassName=\"bg-red-50 p-2\"".toList).getD 1 [])) := by
  refine ⟨by decide, ?_⟩
  exact line_numbers_one_based.1 "const x = 1\nclassName=\"bg-red-50 p-2\"".toList
    ("bg-*-50 (use -100)", [⟨2, "bg-red-50 ", "className=\"bg-red-50 p-2\""⟩])
    ⟨2, "bg-red-50 ", "className=\"bg-red-50 p-2\""⟩ (by decide) (by decide)

/-- Assigning an absent key appends the pair at the end. -/
theorem dictAssign_absent {α : Type} :
    ∀ (d : List (String × α)) (k : String) (v : α), k ∉ d.map Prod.fst →
      dictAssign d k v = d ++ [(k, v)] := by
  intro d k v
  induction d with
  | nil => intro _; simp [dictAssign]
  | cons p rest ih =>
    intro h
    have hk : ¬p.1 = k := fun he => h (by simp [he])
    have h2 : k ∉ rest.map Prod.fst := fun hx => h (by simp [hx])
    simp [dictAssign, hk, ih h2]

/-- Assigning a path absent under the rule adds exactly its match count to
the aggregate's total. -/
theorem aggAssign_total :
    ∀ (a : Aggregate) (rule relp : String) (ms : List ColorMatch),
      relp ∉ pathsUnder a rule →
      aggTotal (aggAssign a rule relp ms) = aggTotal a + ms.length := by
  intro a rule relp ms
  induction a with
  | nil => intro _; simp [aggAssign, aggTotal]
  | cons p rest ih =>
    intro h
    by_cases hk : p.1 = rule
    · have habs : relp ∉ p.2.map Prod.fst := by
        simpa [pathsUnder, lookupD, hk] using h
      rw [show aggAssign (p :: rest) rule relp ms
            = (p.1, dictAssign p.2 relp ms) :: rest by simp [aggAssign, hk]]
      rw [dictAssign_absent p.2 relp ms habs]
      simp [aggTotal]
      omega
    · have h2 : relp ∉ pathsUnder rest rule := by
        simpa [pathsUnder, lookupD, hk] using h
      rw [show aggAssign (p :: rest) rule relp ms
            = p :: aggAssign rest rule relp ms by simp [aggAssign, hk]]
      simp [aggTotal] at ih ⊢
      rw [ih h2]
      omega

/-- Assigning under one rule leaves the paths of every other rule alone. -/
theorem aggAssign_pathsUnder_ne :
    ∀ (a : Aggregate) (rule relp : String) (ms : List ColorMatch) (r' : String),
      r' ≠ rule → pathsUnder (aggAssign a rule relp ms) r' = pathsUnder a r' := by
  intro a rule relp ms r' hne
  induction a with
  | nil => simp [aggAssign, pathsUnder, lookupD, Ne.symm hne]
  | cons p rest ih =>
    by_cases hk : p.1 = rule
    · have hp : ¬p.1 = r' := by rw [hk]; exact Ne.symm hne
      simp [aggAssign, hk, pathsUnder, lookupD, hp]
      have : ¬rule = r' := Ne.symm hne
      simp [this]
    · by_cases h2 : p.1 = r'
      · simp [aggAssign, hk, pathsUnder, lookupD, h2, hne]
      · simp [aggAssign, hk, pathsUnder, lookupD, h2] at ih ⊢
        exact ih

/-- A path stored under some rule is stored in the aggregate. -/
theorem pathsUnder_sub :
    ∀ (a : Aggregate) (r x : String), x ∈ pathsUnder a r → x ∈ aggPaths a := by
  intro a r x
  induction a with
  | nil => intro hx; simp [pathsUnder, lookupD] at hx
  | cons p rest ih =>
    intro hx
    by_cases hk : p.1 = r
    · simp [pathsUnder, lookupD, hk] at hx
      simp [aggPaths]
      left
      simpa using hx
    · simp [pathsUnder, lookupD, hk] at hx
      have := ih (by simpa [pathsUnder] using hx)
      simp [aggPaths] at this ⊢
      right
      exact this

/-- The keys after a `dAppend`. -/
theorem dAppend_keys {α : Type} :
    ∀ (res : List (String × List α)) (k : String) (v : α),
      (dAppend res k v).map Prod.fst
        = if k ∈ res.map Prod.fst then res.map Prod.fst
          else res.map Prod.fst ++ [k] := by
  intro res k v
  induction res with
  | nil => simp [dAppend]
  | cons p rest ih =>
    by_cases hk : p.1 = k
    · simp [dAppend, hk]
    · have hne : ¬k = p.1 := fun he => hk he.symm
      by_cases hmem : k ∈ rest.map Prod.fst
      · simp [dAppend, hk, ih, hmem, hne]
      · simp [dAppend, hk, ih, hmem, hne]

/-- `dAppend` keeps the keys distinct. -/
theorem dAppend_keys_nodup {α : Type} (res : List (String × List α)) (k : String)
    (v : α) (h : (res.map Prod.fst).Nodup) : ((dAppend res k v).map Prod.fst).Nodup := by
  rw [dAppend_keys]
  by_cases hk : k ∈ res.map Prod.fst
  · simp [hk, h]
  · simp [hk, List.nodup_append, h]

/-- The rule keys of a per-file scan result are distinct. -/
theorem scanContent_keys_nodup (c : List Char) :
    ((scanContent c).map Prod.fst).Nodup := by
  refine foldl_inv (fun res => (res.map Prod.fst).Nodup)
    (fun res p => PATTERNS.foldl (fun r q => scanLineRule p.1 p.2 r q.1 q.2) res)
    (enumFrom1 1 (splitNl c)) [] ?_ (by simp)
  intro b a _ hb
  refine foldl_inv (fun res => (res.map Prod.fst).Nodup)
    (fun r q => scanLineRule a.1 a.2 r q.1 q.2) PATTERNS b ?_ hb
  intro b2 q _ hb2
  refine foldl_inv (fun res => (res.map Prod.fst).Nodup)
    (guardStep a.1 a.2 q.1) (reFindAll q.2 a.2) b2 ?_ hb2
  intro b3 m _ hb3
  cases hc : hasSeg markerFocus a.2 && hasSeg suffix90050 m with
  | true => rw [guardStep_true a.1 a.2 q.1 b3 m hc]; exact hb3
  | false => rw [guardStep_false a.1 a.2 q.1 b3 m hc]; exact dAppend_keys_nodup b3 q.1 _ hb3

/-- Merging one file's scan result (distinct rule keys, path fresh under
every rule) adds its match count to both the running total and the
aggregate's total. -/
theorem aggFile_sum :
    ∀ (res : ScanResult) (agg : Aggregate) (tot : Nat) (p : String),
      (res.map Prod.fst).Nodup →
      (∀ pr ∈ res, p ∉ pathsUnder agg pr.1) →
      (res.foldl (fun q pr => (aggAssign q.1 pr.1 p pr.2, q.2 + pr.2.length)) (agg, tot)).2
          = tot + (res.map (fun pr => pr.2.length)).sum ∧
      aggTotal
          (res.foldl (fun q pr => (aggAssign q.1 pr.1 p pr.2, q.2 + pr.2.length)) (agg, tot)).1
          = aggTotal agg + (res.map (fun pr => pr.2.length)).sum := by
  intro res
  induction res with
  | nil => intro agg tot p _ _; simp
  | cons pr0 rest ih =>
    intro agg tot p hnd hfresh
    rw [List.foldl_cons]
    have h0 : p ∉ pathsUnder agg pr0.1 := hfresh pr0 (List.mem_cons_self _ _)
    have hnd' : (pr0.1 :: rest.map Prod.fst).Nodup := by simpa using hnd
    have hkey : pr0.1 ∉ rest.map Prod.fst := (List.nodup_cons.mp hnd').1
    have hfresh' : ∀ pr ∈ rest, p ∉ pathsUnder (aggAssign agg pr0.1 p pr0.2) pr.1 := by
      intro pr hpr
      have hne : pr.1 ≠ pr0.1 := by
        intro he
        exact hkey (he ▸ List.mem_map_of_mem Prod.fst hpr)
      rw [aggAssign_pathsUnder_ne agg pr0.1 p pr0.2 pr.1 hne]
      exact hfresh pr (List.mem_cons_of_mem _ hpr)
    obtain ⟨ht, ha⟩ := ih (aggAssign agg pr0.1 p pr0.2) (tot + pr0.2.length) p
      (List.nodup_cons.mp hnd').2 hfresh'
    refine ⟨?_, ?_⟩
    · rw [ht]; simp; omega
    · rw [ha, aggAssign_total agg pr0.1 p pr0.2 h0]; simp; omega

/-- Scan results have distinct rule keys whatever the read outcome. -/
theorem find_patterns_keys_nodup (f : SrcFile) :
    ((find_patterns_in_file f).map Prod.fst).Nodup := by
  cases hcon : f.content with
  | ok c => simpa [find_patterns_in_file, hcon] using scanContent_keys_nodup c
  | error e => simp [find_patterns_in_file, hcon]

/-- Along the walk, the running total stays equal to the aggregate's total
as long as the processed paths are distinct and fresh. -/
theorem foldl_procAT_total :
    ∀ (fs : List SrcFile) (st : Aggregate × Nat),
      (fs.map SrcFile.path).Nodup →
      (∀ x ∈ aggPaths st.1, x ∉ fs.map SrcFile.path) →
      st.2 = aggTotal st.1 →
      (fs.foldl procAT st).2 = aggTotal (fs.foldl procAT st).1 := by
  intro fs
  induction fs with
  | nil => intro st _ _ h; simpa using h
  | cons f fs ih =>
    intro st hnd hdisj heq
    rw [List.foldl_cons]
    have hnd' : (f.path :: fs.map SrcFile.path).Nodup := by simpa using hnd
    have hsub : ∀ x ∈ aggPaths (procAT st f).1, x ∈ aggPaths st.1 ∨ x = f.path :=
      fun x hx => procAT_paths st f x hx
    have hdisj' : ∀ x ∈ aggPaths (procAT st f).1, x ∉ fs.map SrcFile.path := by
      intro x hx hmem
      rcases hsub x hx with h' | h'
      · exact hdisj x h' (by simp [hmem])
      · rw [h'] at hmem
        exact (List.nodup_cons.mp hnd').1 hmem
    refine ih (procAT st f) (List.nodup_cons.mp hnd').2 hdisj' ?_
    by_cases hig : should_ignore f.path.data = true
    · simpa [procAT, hig] using heq
    · have hpf : procAT st f
          = (find_patterns_in_file f).foldl
              (fun q pr => (aggAssign q.1 pr.1 f.path pr.2, q.2 + pr.2.length)) st := by
        simp [procAT, hig]
      have hfresh : ∀ pr ∈ find_patterns_in_file f, f.path ∉ pathsUnder st.1 pr.1 := by
        intro pr _ hx
        exact hdisj f.path (pathsUnder_sub st.1 pr.1 f.path hx) (by simp)
      obtain ⟨ht, ha⟩ := aggFile_sum (find_patterns_in_file f) st.1 st.2 f.path
        (find_patterns_keys_nodup f) hfresh
      rw [hpf]
      have hst : st = (st.1, st.2) := rfl
      rw [hst] at ht ha ⊢
      rw [ht, ha, heq]

/-- C7: when the walked files have distinct paths (as `rglob` yields), the
total issue count accumulated by the loop — the number printed by the
summary as `Total issues found:` — equals the sum, over all rules and all
files of the aggregate, of the number of recorded matches. -/
theorem summary_total_is_sum (fs : List SrcFile)
    (hnd : (fs.map SrcFile.path).Nodup) :
    (processFiles fs).total = aggTotal (processFiles fs).agg ∧
    ("Total issues found: " ++ toString (aggTotal (processFiles fs).agg))
      ∈ mainStdout fs := by
  have hsep := foldl_procOne_eq fs { agg := [], total := 0, errs := [] }
  have htot : (processFiles fs).total = aggTotal (processFiles fs).agg := by
    have hPF : processFiles fs = fs.foldl procOne { agg := [], total := 0, errs := [] } := rfl
    rw [hPF, hsep]
    show (fs.foldl procAT ([], 0)).2 = aggTotal (fs.foldl procAT ([], 0)).1
    exact foldl_procAT_total fs ([], 0) hnd (by simp [aggPaths]) (by simp [aggTotal])
  refine ⟨htot, ?_⟩
  rw [← htot]
  simp [mainStdout, summaryLines]

/-- C7 witness at a concrete two-file run. -/
theorem summary_total_is_sum_witness :
    (([⟨"app/A.tsx", Except.ok "dark:bg-blue-900/50".toList⟩,
       ⟨"app/B.tsx", Except.ok "className=\"bg-red-50 p-2\"".toList⟩]
        : List SrcFile).map SrcFile.path).Nodup ∧
    (processFiles
        [⟨"app/A.tsx", Except.ok "dark:bg-blue-900/50".toList⟩,
         ⟨"app/B.tsx", Except.ok "className=\"bg-red-50 p-2\"".toList⟩]).total
      = aggTotal (processFiles
          [⟨"app/A.tsx", Except.ok "dark:bg-blue-900/50".toList⟩,
           ⟨"app/B.tsx", Except.ok "className=\"bg-red-50 p-2\"".toList⟩]).agg := by
  refine ⟨by decide, ?_⟩
  exact (summary_total_is_sum
    [⟨"app/A.tsx", Except.ok "dark:bg-blue-900/50".toList⟩,
     ⟨"app/B.tsx", Except.ok "className=\"bg-red-50 p-2\"".toList⟩] (by decide)).1

theorem getLast?_cons_of_ne_nil {α : Type} (a : α) (l : List α) (h : l ≠ []) :
    (a :: l).getLast? = l.getLast? := by
  cases l with
  | nil => exact absurd rfl h
  | cons b l' => exact List.getLast?_cons_cons

/-- A pattern beginning with a literal never matches the empty string. -/
theorem matchSeq_lit_ne_nil :
    ∀ (f : Nat) (c : Char) (ps : Regex) (s m r : List Char),
      matchSeq f (RAtom.lit c :: ps) s = some (m, r) → m ≠ [] := by
  intro f c ps s m r h
  cases f with
  | zero => simp [matchSeq] at h
  | succ f =>
    cases s with
    | nil => simp [matchSeq] at h
    | cons x s' =>
      rw [matchSeq] at h
      split at h
      · obtain ⟨pr, _, hpr2⟩ := Option.map_eq_some'.mp h
        have hm : x :: pr.1 = m := congrArg Prod.fst hpr2
        rw [← hm]
        simp
      · simp at h

/-- When the pattern ends with a single-character class, every successful
match ends with a character of that class. -/
theorem matchSeq_last_cls (q : Char → Bool) :
    ∀ (f : Nat) (ps : Regex) (s m r : List Char),
      ps.getLast? = some (RAtom.cls q) →
      matchSeq f ps s = some (m, r) → ∃ c, m.getLast? = some c ∧ q c = true := by
  intro f
  induction f with
  | zero => intro ps s m r _ h; simp [matchSeq] at h
  | succ f ih =>
    intro ps s m r hlast h
    cases ps with
    | nil => simp at hlast
    | cons a ps' =>
      cases a with
      | lit c =>
        cases s with
        | nil => simp [matchSeq] at h
        | cons x s' =>
          rw [matchSeq] at h
          split at h
          · obtain ⟨pr, hpr, hpr2⟩ := Option.map_eq_some'.mp h
            obtain ⟨m1, r1⟩ := pr
            cases hpr2
            cases ps' with
            | nil => simp at hlast
            | cons b ps'' =>
              rw [List.getLast?_cons_cons] at hlast
              obtain ⟨c2, hc2, hq2⟩ := ih (b :: ps'') s' m1 r1 hlast hpr
              have hne : m1 ≠ [] := by intro he; rw [he] at hc2; simp at hc2
              exact ⟨c2, by rw [getLast?_cons_of_ne_nil x m1 hne]; exact hc2, hq2⟩
          · simp at h
      | cls p =>
        cases s with
        | nil => simp [matchSeq] at h
        | cons x s' =>
          rw [matchSeq] at h
          split at h
          case isTrue hpx =>
            obtain ⟨pr, hpr, hpr2⟩ := Option.map_eq_some'.mp h
            obtain ⟨m1, r1⟩ := pr
            cases hpr2
            cases ps' with
            | nil =>
              have hpq : p = q := by simpa using hlast
              cases f with
              | zero => simp [matchSeq] at hpr
              | succ f2 =>
                rw [matchSeq] at hpr
                injection hpr with hpr1
                injection hpr1 with hm1 hr1
                refine ⟨x, ?_, ?_⟩
                · rw [← hm1]; rfl
                · rw [← hpq]; exact hpx
            | cons b ps'' =>
              rw [List.getLast?_cons_cons] at hlast
              obtain ⟨c2, hc2, hq2⟩ := ih (b :: ps'') s' m1 r1 hlast hpr
              have hne : m1 ≠ [] := by intro he; rw [he] at hc2; simp at hc2
              exact ⟨c2, by rw [getLast?_cons_of_ne_nil x m1 hne]; exact hc2, hq2⟩
          case isFalse => simp at h
      | star p =>
        cases ps' with
        | nil => simp at hlast
        | cons b ps'' =>
          rw [List.getLast?_cons_cons] at hlast
          cases s with
          | nil =>
            rw [matchSeq] at h
            exact ih (b :: ps'') [] m r hlast h
          | cons x s' =>
            rw [matchSeq] at h
            split at h
            case isTrue hpx =>
              cases hm : matchSeq f (RAtom.star p :: b :: ps'') s' with
              | some pr =>
                rw [hm] at h
                obtain ⟨m1, r1⟩ := pr
                cases h
                obtain ⟨c2, hc2, hq2⟩ := ih (RAtom.star p :: b :: ps'') s' m1 r1
                  (by rw [List.getLast?_cons_cons]; exact hlast) hm
                have hne : m1 ≠ [] := by intro he; rw [he] at hc2; simp at hc2
                exact ⟨c2, by rw [getLast?_cons_of_ne_nil x m1 hne]; exact hc2, hq2⟩
              | none =>
                rw [hm] at h
                exact ih (b :: ps'') (x :: s') m r hlast h
            case isFalse =>
              exact ih (b :: ps'') (x :: s') m r hlast h

/-- `findall` propagates the final-class property to every match, given
that the pattern never matches the empty string. -/
theorem findAllAux_last_cls (q : Char → Bool) (rx : Regex)
    (hlast : rx.getLast? = some (RAtom.cls q))
    (hne : ∀ (f : Nat) (s m r : List Char), matchSeq f rx s = some (m, r) → m ≠ []) :
    ∀ (f : Nat) (s m : List Char), m ∈ findAllAux rx f s →
      ∃ c, m.getLast? = some c ∧ q c = true := by
  intro f
  induction f with
  | zero => intro s m hm; simp [findAllAux] at hm
  | succ f ih =>
    intro s m hm
    cases s with
    | nil =>
      rw [findAllAux] at hm
      cases hre : reMatch rx [] with
      | none => rw [hre] at hm; simp at hm
      | some pr =>
        rw [hre] at hm
        obtain ⟨m', r⟩ := pr
        simp at hm
        subst hm
        exact matchSeq_last_cls q (([] : List Char).length + rx.length + 1) rx [] m r hlast hre
    | cons x t =>
      rw [findAllAux] at hm
      cases hre : reMatch rx (x :: t) with
      | none => rw [hre] at hm; exact ih t m hm
      | some pr =>
        rw [hre] at hm
        obtain ⟨m', r⟩ := pr
        cases m' with
        | nil => exact absurd rfl (hne ((x :: t).length + rx.length + 1) (x :: t) [] r hre)
        | cons y m'' =>
          simp at hm
          rcases hm with hm | hm
          · subst hm
            exact matchSeq_last_cls q ((x :: t).length + rx.length + 1) rx (x :: t)
              (y :: m'') r hlast hre
          · exact ih r m hm

/-- C10: every match of the "-50 shade" rule ends with one of the delimiter
characters (whitespace, double quote, backtick, or slash); an occurrence
such as `bg-red-50` at the very end of a line, with nothing after it,
produces no match under any rule. -/
theorem bg50_needs_delimiter :
    (∀ (s m : List Char), m ∈ reFindAll patBg50 s →
      ∃ c, m.getLast? = some c ∧ delim50 c = true) ∧
    scanContent "bg-red-50".toList = [] := by
  refine ⟨?_, by decide⟩
  intro s m hm
  have hlast : patBg50.getLast? = some (RAtom.cls delim50) := rfl
  have hne : ∀ (f : Nat) (s' m' r : List Char),
      matchSeq f patBg50 s' = some (m', r) → m' ≠ [] := by
    intro f s' m' r h
    exact matchSeq_lit_ne_nil f 'b'
      (litSeq "g-" ++ plusC wordC ++ litSeq "-50" ++ [RAtom.cls delim50]) s' m' r h
  exact findAllAux_last_cls delim50 patBg50 hlast hne (s.length + 1) s m hm

/-- C10 witness: the match of `bg-red-50 ` ends in the space delimiter. -/
theorem bg50_needs_delimiter_witness :
    ("bg-red-50 ".toList ∈ reFindAll patBg50 "className=\"bg-red-50 p-2\"".toList) ∧
    (∃ c, "bg-red-50 ".toList.getLast? = some c ∧ delim50 c = true) := by
  refine ⟨by decide, ?_⟩
  exact bg50_needs_delimiter.1 "className=\"bg-red-50 p-2\"".toList "bg-red-50 ".toList
    (by decide)

/-- A printed line that shows one match. -/
def isMatchLine (l : String) : Bool := l.toList.take 9 = "    Line ".toList

/-- A printed truncation note. -/
def isTruncLine (l : String) : Bool := l.toList.take 8 = "    ... ".toList

theorem isMatchLine_fmtMatch (m : ColorMatch) : isMatchLine (fmtMatch m) = true := by
  have h : (fmtMatch m).toList
      = "    Line ".toList ++ (toString m.line ++ ": " ++ m.text).toList := by
    simp [fmtMatch, String.toList]
  rw [isMatchLine, h]
  rw [show (9 : Nat) = ("    Line ".toList).length from rfl, List.take_left]
  simp

theorem isTruncLine_fmtMatch (m : ColorMatch) : isTruncLine (fmtMatch m) = false := by
  have h : (fmtMatch m).toList
      = "    Line ".toList ++ (toString m.line ++ ": " ++ m.text).toList := by
    simp [fmtMatch, String.toList]
  have ht : ("    Line ".toList ++ (toString m.line ++ ": " ++ m.text).toList).take 8
      = "    Line ".toList.take 8 := List.take_append_of_le_length (by decide)
  rw [isTruncLine, h, ht]
  decide

theorem isMatchLine_header (fp : String) : isMatchLine ("\n  " ++ fp ++ ":") = false := by
  simp [isMatchLine, String.toList]

theorem isTruncLine_header (fp : String) : isTruncLine ("\n  " ++ fp ++ ":") = false := by
  simp [isTruncLine, String.toList]

theorem isMatchLine_trunc (n : Nat) :
    isMatchLine ("    ... and " ++ toString n ++ " more") = false := by
  have h : ("    ... and " ++ toString n ++ " more").toList
      = "    ... and ".toList ++ (toString n ++ " more").toList := by
    simp [String.toList]
  have ht : ("    ... and ".toList ++ (toString n ++ " more").toList).take 9
      = "    ... and ".toList.take 9 := List.take_append_of_le_length (by decide)
  rw [isMatchLine, h, ht]
  decide

theorem isTruncLine_trunc (n : Nat) :
    isTruncLine ("    ... and " ++ toString n ++ " more") = true := by
  have h : ("    ... and " ++ toString n ++ " more").toList
      = "    ... and ".toList ++ (toString n ++ " more").toList := by
    simp [String.toList]
  have ht : ("    ... and ".toList ++ (toString n ++ " more").toList).take 8
      = "    ... and ".toList.take 8 := List.take_append_of_le_length (by decide)
  rw [isTruncLine, h, ht]
  decide

/-- The lines printed for one file: the counts of match lines and
truncation notes. -/
theorem fileBlock_counts (fp : String) (ms : List ColorMatch) :
    (fileBlock fp ms).countP isMatchLine = min 5 ms.length ∧
    (fileBlock fp ms).countP isTruncLine = (if 5 < ms.length then 1 else 0) ∧
    (5 < ms.length →
      ("    ... and " ++ toString (ms.length - 5) ++ " more") ∈ fileBlock fp ms) := by
  have hmap : (List.take 5 (ms.map fmtMatch)).countP isMatchLine = min 5 ms.length := by
    rw [← List.map_take, List.countP_map]
    rw [List.countP_eq_length.mpr (fun m _ => by simp [Function.comp, isMatchLine_fmtMatch])]
    exact List.length_take 5 ms
  have hmap2 : (List.take 5 (ms.map fmtMatch)).countP isTruncLine = 0 := by
    rw [← List.map_take, List.countP_map]
    exact List.countP_eq_zero.mpr (fun m _ => by simp [Function.comp, isTruncLine_fmtMatch])
  by_cases h5 : 5 < ms.length
  · refine ⟨?_, ?_, fun _ => ?_⟩
    · simp [fileBlock, h5, List.countP_cons, List.countP_append, isMatchLine_header,
        isMatchLine_trunc, hmap]
    · simp [fileBlock, h5, List.countP_cons, List.countP_append, isTruncLine_header,
        isTruncLine_trunc, hmap2]
    · simp [fileBlock, h5]
  · refine ⟨?_, ?_, fun h => absurd h h5⟩
    · simp [fileBlock, h5, List.countP_cons, List.countP_append, isMatchLine_header,
        hmap]
    · simp [fileBlock, h5, List.countP_cons, List.countP_append, isTruncLine_header,
        hmap2]

/-- C8: the reporter emits the rule sections in ascending lexicographic
order of rule name (losing none: the sorted list is a permutation of the
aggregate); within a rule the file blocks come in ascending lexicographic
order of file path; and each file block prints `min 5` of its matches —
at most 5 — together with exactly one truncation note, stating how many
more matches exist, exactly when there are more than 5. -/
theorem report_sorted_truncated (agg : Aggregate) :
    reportLines agg = (sortPairs agg).flatMap (fun pr => ruleSection pr.1 pr.2) ∧
    List.Pairwise keyLe (sortPairs agg) ∧ List.Perm (sortPairs agg) agg ∧
    (∀ (r : String) (files : List (String × List ColorMatch)),
      ruleSection r files
          = sectionHeader r files ++ (sortPairs files).flatMap (fun q => fileBlock q.1 q.2) ∧
      List.Pairwise keyLe (sortPairs files) ∧ List.Perm (sortPairs files) files) ∧
    (∀ (fp : String) (ms : List ColorMatch),
      (fileBlock fp ms).countP isMatchLine = min 5 ms.length ∧
      (fileBlock fp ms).countP isTruncLine = (if 5 < ms.length then 1 else 0) ∧
      (5 < ms.length →
        ("    ... and " ++ toString (ms.length - 5) ++ " more") ∈ fileBlock fp ms)) := by
  refine ⟨rfl, ?_, ?_, ?_, ?_⟩
  · exact List.sorted_insertionSort keyLe agg
  · exact List.perm_insertionSort keyLe agg
  · intro r files
    exact ⟨rfl, List.sorted_insertionSort keyLe files, List.perm_insertionSort keyLe files⟩
  · intro fp ms
    exact fileBlock_counts fp ms

/-- C8 witness: a file with six matches prints a `... and 1 more` note. -/
theorem report_sorted_truncated_witness :
    5 < ([⟨1, "a", "a"⟩, ⟨2, "a", "a"⟩, ⟨3, "a", "a"⟩, ⟨4, "a", "a"⟩, ⟨5, "a", "a"⟩,
          ⟨6, "a", "a"⟩] : List ColorMatch).length ∧
    ("    ... and "
        ++ toString (([⟨1, "a", "a"⟩, ⟨2, "a", "a"⟩, ⟨3, "a", "a"⟩, ⟨4, "a", "a"⟩,
            ⟨5, "a", "a"⟩, ⟨6, "a", "a"⟩] : List ColorMatch).length - 5) ++ " more")
      ∈ fileBlock "app/F.tsx"
          [⟨1, "a", "a"⟩, ⟨2, "a", "a"⟩, ⟨3, "a", "a"⟩, ⟨4, "a", "a"⟩, ⟨5, "a", "a"⟩,
           ⟨6, "a", "a"⟩] := by
  refine ⟨by decide, ?_⟩
  exact ((report_sorted_truncated []).2.2.2.2 "app/F.tsx"
    [⟨1, "a", "a"⟩, ⟨2, "a", "a"⟩, ⟨3, "a", "a"⟩, ⟨4, "a", "a"⟩, ⟨5, "a", "a"⟩,
     ⟨6, "a", "a"⟩]).2.2 (by decide)
